import Mathlib

/-!
Verification of the AEMET climate-data export tool (`src/aemet/cli.py`)
against its natural-language specification.

The development is a shallow embedding of the pipeline:

* the two-step fetch with retry/backoff (`fetch_with_retry`),
* the grouping and write-if-absent persistence
  (`group_by_date`, `save_daily_data_by_station`, `save_station_info`),
* the batch planner (`check_date_exists`, `process_date_range`),
* the station sync short-circuit (`cmd_estaciones`), and
* a crash model of the direct file writes.

Modelling conventions:

* Calendar dates are day numbers (`Nat`): Python's `datetime` plus
  `timedelta(days = k)` is ordinal arithmetic, and `strftime`/`strptime`
  with the fixed `%Y-%m-%d` format is a bijection between `datetime`
  values and the date strings the code passes around, so both are
  collapsed to the ordinal.
* The HTTP client is a queue of responses consumed one per `client.get`;
  body bytes are represented by the outcome of the two decoding routes
  the code can take (`response.json()` and
  `content.decode("latin-1")` + `json.loads`).
* The filesystem is an association list from archive paths to file
  contents, appended in write order; `json.dump` of a record is the
  record's opaque `blob` field.
* Wall-clock sleeps (`time.sleep`) and stderr logging are not modelled;
  neither affects any claim.
-/

namespace Aemet

/-! ## Constants (module-level constants in cli.py) -/

def BATCH_SIZE_DAYS : Nat := 15

def MAX_RETRIES : Nat := 5

/-! ## Two-step fetcher (`fetch_with_retry`)

The pipeline inspects a decoded payload only to ask whether it is a dict
containing the `"datos"` indirection key; all other payload content is
an opaque tag. -/

/-- Decoded JSON payloads, abstracted to what `fetch_with_retry`
inspects: a list (`jarr`) or a dict that may or may not carry the
`"datos"` indirection key. -/
inductive Json where
  | jarr (tag : Nat)
  | jdict (datos : Option String) (tag : Nat)
deriving DecidableEq

/-- Outcome of `response.json()` on a body: the decoded value, a
`UnicodeDecodeError` (the only exception the latin-1 fallback catches),
or any other exception (for example a JSON syntax error). -/
inductive Decoded where
  | ok (j : Json)
  | unicodeErr
  | otherErr
deriving DecidableEq

/-- A response body, represented by the results of the two decoding
routes the code can take: `response.json()` (default charset
detection), and `content.decode("latin-1")` followed by `json.loads`
(latin-1 decoding of raw bytes never fails, but the subsequent JSON
parse can, hence `Option`). -/
structure Bytes where
  utf8 : Decoded
  latin1 : Option Json
deriving DecidableEq

structure HttpResponse where
  status : Nat
  body : Bytes
deriving DecidableEq

/-- The status codes of the explicit retry branch
`elif response.status_code in (429, 500, 502, 503)`. -/
def retriableStatus (c : Nat) : Bool :=
  c == 429 || c == 500 || c == 502 || c == 503

/-- httpx `raise_for_status` raises for every non-2xx response. -/
def is2xx (c : Nat) : Bool := 200 ≤ c && c ≤ 299

/-- The second-hop decode:
`try: return data_response.json() except UnicodeDecodeError:
content = data_response.content.decode("latin-1"); return
json.loads(content)`. Only a `UnicodeDecodeError` triggers the latin-1
fallback; any other failure (or a parse failure of the latin-1 text)
escapes to the outer retry handler. -/
def decode_step2 (b : Bytes) : Except Unit Json :=
  match b.utf8 with
  | .ok j => .ok j
  | .unicodeErr =>
    match b.latin1 with
    | some j => .ok j
    | none => .error ()
  | .otherErr => .error ()

/-- Outcome of one iteration of the `for attempt in range(max_retries)`
loop body. -/
inductive AttemptOut where
  | success (j : Json)
  | rateLimited
  | exn
  | fallthroughOk
deriving DecidableEq

/-- One iteration of the retry loop: issue the first request, resolve
the `"datos"` indirection with a second request when present, decode.
Returns the outcome, the remaining response queue, and the number of
HTTP requests issued.  An empty queue models a connection failure
(an exception on the calling path, with no request delivered). -/
def oneAttempt : List HttpResponse → AttemptOut × List HttpResponse × Nat
  | [] => (.exn, [], 0)
  | r :: rest =>
    if r.status = 200 then
      match r.body.utf8 with
      | .ok j =>
        match j with
        | .jdict (some _) _ =>
          match rest with
          | [] => (.exn, [], 1)
          | r2 :: rest2 =>
            if r2.status = 200 then
              match decode_step2 r2.body with
              | .ok payload => (.success payload, rest2, 2)
              | .error _ => (.exn, rest2, 2)
            else (.exn, rest2, 2)
        | _ => (.success j, rest, 1)
      | _ => (.exn, rest, 1)
    else if retriableStatus r.status then (.rateLimited, rest, 1)
    else if is2xx r.status then (.fallthroughOk, rest, 1)
    else (.exn, rest, 1)

/-- Result of `fetch_with_retry`: the decoded payload, or the exception
that escapes (either the terminal `Failed after N attempts` or a
re-raised exception on the last attempt). -/
inductive FetchResult where
  | ok (j : Json)
  | fail
deriving DecidableEq

/-- The retry loop of `fetch_with_retry`, by the number of attempts
still available.  A `rateLimited` outcome sleeps and continues; an
exception is swallowed and retried unless this was the last attempt,
in which case it is re-raised; a 2xx non-200 response falls through
`raise_for_status` without an exception and the loop continues.
Returns the result and the total number of HTTP requests issued. -/
def fetchGo : Nat → List HttpResponse → FetchResult × Nat
  | 0, _ => (.fail, 0)
  | n + 1, net =>
    match oneAttempt net with
    | (.success j, _, k) => (.ok j, k)
    | (.rateLimited, net', k) =>
      let r := fetchGo n net'
      (r.1, k + r.2)
    | (.fallthroughOk, net', k) =>
      let r := fetchGo n net'
      (r.1, k + r.2)
    | (.exn, net', k) =>
      if n = 0 then (.fail, k)
      else
        let r := fetchGo n net'
        (r.1, k + r.2)

/-- Model of `fetch_with_retry(client, url, max_retries)`: the response queue
plays the role of the client.  Returns the decoded payload or the
surfaced failure, together with the number of requests issued. -/
def fetch_with_retry (net : List HttpResponse) (max_retries : Nat) :
    FetchResult × Nat :=
  fetchGo max_retries net

/-- A plain HTTP 429 response (its body is never decoded). -/
def resp429 : HttpResponse := ⟨429, ⟨.ok (.jarr 0), none⟩⟩

/-- A 200 response whose body decodes directly to a list payload
(the single-hop case, like the station inventory without indirection). -/
def respDirect (tag : Nat) : HttpResponse := ⟨200, ⟨.ok (.jarr tag), none⟩⟩

/-- A response with an arbitrary status code and a well-formed body. -/
def respStatus (c : Nat) : HttpResponse := ⟨c, ⟨.ok (.jarr 0), none⟩⟩

/-- A 200 envelope response carrying the `"datos"` indirection key. -/
def respEnvelope : HttpResponse := ⟨200, ⟨.ok (.jdict (some "datos-url") 0), none⟩⟩

/-- A 200 response whose bytes raise `UnicodeDecodeError` under default
decoding but decode to a list payload under latin-1. -/
def respLatin (tag : Nat) : HttpResponse := ⟨200, ⟨.unicodeErr, some (.jarr tag)⟩⟩

theorem fetchGo_cons429 (m : Nat) (net : List HttpResponse) :
    fetchGo (m + 1) (resp429 :: net) =
      ((fetchGo m net).1, 1 + (fetchGo m net).2) := by
  simp [fetchGo, oneAttempt, resp429, retriableStatus]

theorem fetchGo_direct (m tag : Nat) (net : List HttpResponse) :
    fetchGo (m + 1) (respDirect tag :: net) = (.ok (.jarr tag), 1) := by
  simp [fetchGo, oneAttempt, respDirect]

theorem fetchGo_cons4xx (m : Nat) (c : Nat) (hc : 400 ≤ c) (hc' : c < 500)
    (hne : c ≠ 429) (hm : m ≠ 0) (net : List HttpResponse) :
    fetchGo (m + 1) (respStatus c :: net) =
      ((fetchGo m net).1, 1 + (fetchGo m net).2) := by
  have h1 : ¬ (c = 200) := by omega
  have h2 : retriableStatus c = false := by
    simp only [retriableStatus, Bool.or_eq_false_iff, beq_eq_false_iff_ne, ne_eq]
    omega
  have h3 : is2xx c = false := by
    simp only [is2xx, Bool.and_eq_false_iff, decide_eq_false_iff_not, not_le]
    omega
  simp [fetchGo, oneAttempt, respStatus, h1, h2, h3, hm]

theorem fetch429_ok (n : Nat) : ∀ maxr : Nat, n < maxr → ∀ tag : Nat,
    fetch_with_retry (List.replicate n resp429 ++ [respDirect tag]) maxr =
      (.ok (.jarr tag), n + 1) := by
  induction n with
  | zero =>
    intro maxr h tag
    obtain ⟨m, rfl⟩ := Nat.exists_eq_add_of_lt h
    simp only [List.replicate, List.nil_append, fetch_with_retry]
    rw [show 0 + m + 1 = m + 1 from by omega]
    exact fetchGo_direct m tag []
  | succ n ih =>
    intro maxr h tag
    obtain ⟨m, rfl⟩ := Nat.exists_eq_add_of_lt h
    have hm : n < n + 1 + m := by omega
    have : n + 1 + m + 1 = (n + 1 + m) + 1 := rfl
    rw [fetch_with_retry, Nat.add_comm (n+1) m, Nat.add_comm (m + (n+1)) 1]
    simp only [List.replicate_succ, List.cons_append]
    rw [show 1 + (m + (n + 1)) = (m + (n + 1)) + 1 by omega]
    rw [fetchGo_cons429]
    have := ih (m + (n + 1)) (by omega) tag
    rw [fetch_with_retry] at this
    rw [this]
    simp [Nat.add_comm]

theorem fetch429_cap (maxr : Nat) : ∀ net : List HttpResponse,
    fetch_with_retry (List.replicate maxr resp429 ++ net) maxr =
      (.fail, maxr) := by
  induction maxr with
  | zero => intro net; simp [fetch_with_retry, fetchGo]
  | succ m ih =>
    intro net
    rw [fetch_with_retry, List.replicate_succ, List.cons_append, fetchGo_cons429]
    have := ih net
    rw [fetch_with_retry] at this
    rw [this]
    simp [Nat.add_comm]

/-- C1.  The claim says the number of retries on a 429 is never
silently capped.  The loop `for attempt in range(max_retries)` consumes
one attempt per 429, so `MAX_RETRIES` consecutive 429 responses exhaust
the loop and the call fails even though a 200 follows. -/
theorem rate_limit_retries_capped_cex :
    fetch_with_retry (List.replicate MAX_RETRIES resp429 ++ [respDirect 7])
        MAX_RETRIES = (.fail, 5) := by
  decide

/-- C1 (amended).  A run of consecutive 429 responses followed by a 200
yields exactly one successfully decoded payload, with one request per
attempt, provided the number of 429s is strictly below `max_retries`;
the retry count on rate limiting is capped at `max_retries`, and at
`max_retries` consecutive 429s the call fails. -/
theorem rate_limit_retry_amended (n maxr tag : Nat) (h : n < maxr) :
    fetch_with_retry (List.replicate n resp429 ++ [respDirect tag]) maxr =
        (.ok (.jarr tag), n + 1)
      ∧ fetch_with_retry (List.replicate maxr resp429 ++ [respDirect tag]) maxr =
        (.fail, maxr) :=
  ⟨fetch429_ok n maxr h tag, fetch429_cap maxr [respDirect tag]⟩

theorem rate_limit_retry_amended_witness :
    fetch_with_retry (List.replicate 3 resp429 ++ [respDirect 7]) MAX_RETRIES =
        (.ok (.jarr 7), 4)
      ∧ fetch_with_retry (List.replicate MAX_RETRIES resp429 ++ [respDirect 7])
          MAX_RETRIES = (.fail, MAX_RETRIES) :=
  rate_limit_retry_amended 3 MAX_RETRIES 7 (by decide)

theorem fetch4xx_ok (c : Nat) (h400 : 400 ≤ c) (h500 : c < 500)
    (h429 : c ≠ 429) (n : Nat) : ∀ maxr : Nat, n < maxr → ∀ tag : Nat,
    fetch_with_retry (List.replicate n (respStatus c) ++ [respDirect tag]) maxr =
      (.ok (.jarr tag), n + 1) := by
  induction n with
  | zero =>
    intro maxr h tag
    obtain ⟨m, rfl⟩ := Nat.exists_eq_add_of_lt h
    simp only [List.replicate, List.nil_append, fetch_with_retry]
    rw [show 0 + m + 1 = m + 1 from by omega]
    exact fetchGo_direct m tag []
  | succ n ih =>
    intro maxr h tag
    obtain ⟨m, rfl⟩ := Nat.exists_eq_add_of_lt h
    rw [fetch_with_retry]
    simp only [List.replicate_succ, List.cons_append]
    rw [show n + 1 + m + 1 = (n + 1 + m) + 1 from rfl]
    rw [fetchGo_cons4xx (n + 1 + m) c h400 h500 h429 (by omega)]
    have := ih (n + 1 + m) (by omega) tag
    rw [fetch_with_retry] at this
    rw [this]
    simp [Nat.add_comm]

theorem fetch4xx_fail (c : Nat) (h400 : 400 ≤ c) (h500 : c < 500)
    (h429 : c ≠ 429) : ∀ maxr : Nat,
    fetch_with_retry (List.replicate maxr (respStatus c)) maxr =
      (.fail, maxr) := by
  intro maxr
  induction maxr with
  | zero => simp [fetch_with_retry, fetchGo]
  | succ m ih =>
    rw [fetch_with_retry, List.replicate_succ]
    match m, ih with
    | 0, _ =>
      have h1 : ¬ (c = 200) := by omega
      have h2 : retriableStatus c = false := by
        simp only [retriableStatus, Bool.or_eq_false_iff, beq_eq_false_iff_ne,
          ne_eq]
        omega
      have h3 : is2xx c = false := by
        simp only [is2xx, Bool.and_eq_false_iff, decide_eq_false_iff_not,
          not_le]
        omega
      simp [fetchGo, oneAttempt, respStatus, h1, h2, h3]
    | m' + 1, ih =>
      rw [fetchGo_cons4xx (m' + 1) c h400 h500 h429 (by omega)]
      rw [fetch_with_retry] at ih
      rw [ih]
      simp [Nat.add_comm]

/-- C2.  The claim says a 4xx other than 429 on the first request
aborts immediately with no further request.  In the code
`response.raise_for_status()` raises inside the `try` block, the
generic `except Exception` handler catches it, sleeps, and retries: a
404 followed by a 200 issues a second request and even succeeds. -/
theorem client_error_not_fatal_cex :
    fetch_with_retry [respStatus 404, respDirect 3] MAX_RETRIES =
      (.ok (.jarr 3), 2) := by
  decide

/-- C2 (amended).  A 4xx status other than 429 raises an exception
that the generic handler catches and retries with backoff, exactly
like any other exception: with fewer non-429 4xx responses than
`max_retries` a following 200 still succeeds (one request per
attempt), and only after `max_retries` consecutive such responses does
the call fail, having issued `max_retries` requests rather than
aborting after the first. -/
theorem client_error_retry_amended (c n maxr tag : Nat) (h400 : 400 ≤ c)
    (h500 : c < 500) (h429 : c ≠ 429) (h : n < maxr) :
    fetch_with_retry (List.replicate n (respStatus c) ++ [respDirect tag])
        maxr = (.ok (.jarr tag), n + 1)
      ∧ fetch_with_retry (List.replicate maxr (respStatus c)) maxr =
        (.fail, maxr) :=
  ⟨fetch4xx_ok c h400 h500 h429 n maxr h tag, fetch4xx_fail c h400 h500 h429 maxr⟩

theorem client_error_retry_amended_witness :
    fetch_with_retry (List.replicate 2 (respStatus 404) ++ [respDirect 3])
        MAX_RETRIES = (.ok (.jarr 3), 3)
      ∧ fetch_with_retry (List.replicate MAX_RETRIES (respStatus 404))
          MAX_RETRIES = (.fail, MAX_RETRIES) :=
  client_error_retry_amended 404 2 MAX_RETRIES 3 (by decide) (by decide)
    (by decide) (by decide)

theorem fetchGo_consLatin (m tag : Nat) (hm : m ≠ 0)
    (net : List HttpResponse) :
    fetchGo (m + 1) (respLatin tag :: net) =
      ((fetchGo m net).1, 1 + (fetchGo m net).2) := by
  simp [fetchGo, oneAttempt, respLatin, hm]

theorem fetchLatin_fail (tag : Nat) : ∀ maxr : Nat,
    fetch_with_retry (List.replicate maxr (respLatin tag)) maxr =
      (.fail, maxr) := by
  intro maxr
  induction maxr with
  | zero => simp [fetch_with_retry, fetchGo]
  | succ m ih =>
    rw [fetch_with_retry, List.replicate_succ]
    match m, ih with
    | 0, _ => simp [fetchGo, oneAttempt, respLatin]
    | m' + 1, ih =>
      rw [fetchGo_consLatin (m' + 1) tag (by omega)]
      rw [fetch_with_retry] at ih
      rw [ih]
      simp [Nat.add_comm]

/-- C7.  The claim says the latin-1 fallback applies to payload
decoding on either hop of the two-step fetch.  The fallback exists
only around the second-hop `data_response.json()`; on the first hop
`response.json()` has no fallback, so a direct (single-hop) payload
that only decodes under latin-1 fails on every attempt and the call
fails even though the latin-1 route would have produced a payload. -/
theorem hop1_no_fallback_cex :
    fetch_with_retry (List.replicate MAX_RETRIES (respLatin 7)) MAX_RETRIES =
      (.fail, 5) := by
  decide

/-- C7 (amended).  The latin-1 fallback applies only to the second hop
of the two-step fetch: a second-hop payload whose bytes raise
`UnicodeDecodeError` under default decoding but decode under latin-1
still yields the correct structured result, while a first-hop payload
in the same situation is never decoded under the fallback and the
call fails after exhausting its attempts. -/
theorem latin1_fallback_amended (tag maxr : Nat) (h : 1 ≤ maxr) :
    fetch_with_retry [respEnvelope, respLatin tag] maxr =
        (.ok (.jarr tag), 2)
      ∧ fetch_with_retry (List.replicate maxr (respLatin tag)) maxr =
        (.fail, maxr) := by
  constructor
  · obtain ⟨m, rfl⟩ := Nat.exists_eq_add_of_le h
    rw [show 1 + m = m + 1 from by omega]
    simp [fetch_with_retry, fetchGo, oneAttempt, respEnvelope, respLatin,
      decode_step2]
  · exact fetchLatin_fail tag maxr

theorem latin1_fallback_amended_witness :
    fetch_with_retry [respEnvelope, respLatin 9] MAX_RETRIES =
        (.ok (.jarr 9), 2)
      ∧ fetch_with_retry (List.replicate MAX_RETRIES (respLatin 9))
          MAX_RETRIES = (.fail, MAX_RETRIES) :=
  latin1_fallback_amended 9 MAX_RETRIES (by decide)

/-! ## Data model and archive store

A weather record carries the two routing fields the pipeline extracts
(`record.get("fecha")`, `record.get("indicativo")`) and an opaque
`blob` standing for the full JSON serialization `json.dump` writes. -/

structure DRecord where
  fecha : Option Nat
  indicativo : Option String
  blob : String
deriving DecidableEq

/-- A station inventory payload: the routing field `s["indicativo"]`
(`none` when the key is missing) and the opaque serialized payload. -/
structure SRecord where
  indicativo : Option String
  blob : String
deriving DecidableEq

/-- Archive paths: `estaciones/<indicativo>.json` and
`valores-climatologicos/<YYYY>/<MM>/<DD>/<indicativo>.json` (the date
triple collapsed to its day ordinal). -/
inductive APath where
  | station (indicativo : String)
  | daily (date : Nat) (indicativo : String)
deriving DecidableEq

/-- The archive: an association list from path to file content, in
write order.  Parent directories carry no information and are not
modelled (`mkdir(parents=True, exist_ok=True)` never fails). -/
abbrev FS := List (APath × String)

/-- Existence of a file at a path (`file_path.exists()`). -/
def pmem (p : APath) (fs : FS) : Bool :=
  fs.any fun pc => decide (pc.1 = p)

/-- Content of the file at a path, if any. -/
def lookupFS (p : APath) (fs : FS) : Option String :=
  (fs.find? fun pc => decide (pc.1 = p)).map (·.2)

/-- Model of `check_date_exists`: the day directory exists and contains at
least one `*.json` file, i.e. at least one daily entry for that date
is archived (for any station). -/
def check_date_exists (date : Nat) (fs : FS) : Bool :=
  fs.any fun pc =>
    match pc.1 with
    | .daily d _ => decide (d = date)
    | .station _ => false

/-- Python dict assignment `d[k] = v` on an insertion-ordered dict:
replace in place if the key is present, else append. -/
def upsert {α : Type} : List (String × α) → String → α → List (String × α)
  | [], k, v => [(k, v)]
  | (k', v') :: t, k, v =>
    if k' = k then (k', v) :: t else (k', v') :: upsert t k v

/-- Python `setdefault(date, []).append(record)` on an
insertion-ordered dict keyed by date. -/
def insertRec : List (Nat × List DRecord) → Nat → DRecord →
    List (Nat × List DRecord)
  | [], d, r => [(d, [r])]
  | (k, rs) :: t, d, r =>
    if k = d then (k, rs ++ [r]) :: t else (k, rs) :: insertRec t d r

/-- The loop of `group_by_date`, with the accumulated grouping. -/
def groupGo : List DRecord → List (Nat × List DRecord) →
    List (Nat × List DRecord)
  | [], acc => acc
  | r :: rest, acc =>
    match r.fecha with
    | some d => groupGo rest (insertRec acc d r)
    | none => groupGo rest acc

/-- Model of `group_by_date`: group weather records by date, silently dropping
records whose `fecha` is missing. -/
def group_by_date (data : List DRecord) : List (Nat × List DRecord) :=
  groupGo data []

/-- The loop building `stations_data` in `save_daily_data_by_station`:
key the records by station, last record per station winning, silently
dropping records whose `indicativo` is missing. -/
def stationsDataGo : List DRecord → List (String × DRecord) →
    List (String × DRecord)
  | [], acc => acc
  | r :: rest, acc =>
    match r.indicativo with
    | some i => stationsDataGo rest (upsert acc i r)
    | none => stationsDataGo rest acc

def stationsData (data : List DRecord) : List (String × DRecord) :=
  stationsDataGo data []

/-- The common persistence loop of `save_station_info` and
`save_daily_data_by_station`: for each keyed entry, if no file exists
at the derived path, write the serialized payload there and count it;
otherwise leave the existing file untouched and do not count it.
`pathOf` derives the path from the key, `contentOf` serializes the
payload. -/
def putAll {α : Type} (pathOf : String → APath) (contentOf : α → String) :
    List (String × α) → FS × Nat → FS × Nat
  | [], st => st
  | kv :: rest, st =>
    if pmem (pathOf kv.1) st.1 then putAll pathOf contentOf rest st
    else putAll pathOf contentOf rest
      (st.1 ++ [(pathOf kv.1, contentOf kv.2)], st.2 + 1)

/-- Model of `save_daily_data_by_station(date_str, data, output_dir)`: group the
records by station, then write each station's record to
`valores-climatologicos/YYYY/MM/DD/<indicativo>.json` only if that
file does not already exist.  Returns the archive and `saved_count`. -/
def save_daily_data_by_station (date : Nat) (data : List DRecord)
    (fs : FS) : FS × Nat :=
  putAll (.daily date) (·.blob) (stationsData data) (fs, 0)

/-- Model of `save_station_info(stations, output_dir)`: write each station of
the inventory dict to `estaciones/<indicativo>.json` only if that file
does not already exist.  Returns the archive and `saved_count`. -/
def save_station_info (stations : List (String × SRecord)) (fs : FS) :
    FS × Nat :=
  putAll .station (·.blob) stations (fs, 0)

/-! ## Batch planner (`process_date_range`) -/

/-- The window generation of the `while current <= end_date` loop:
each window runs from `current` to
`min(current + timedelta(days=BATCH_SIZE_DAYS - 1), end_date)`, and the
next iteration starts the day after.  `fuel` bounds the number of loop
iterations; since every iteration advances `current` by at least one
day, `e + 1 - s` iterations always suffice. -/
def windowsGo : Nat → Nat → Nat → List (Nat × Nat)
  | 0, _, _ => []
  | fuel + 1, s, e =>
    if s ≤ e then
      let be := min (s + (BATCH_SIZE_DAYS - 1)) e
      (s, be) :: windowsGo fuel (be + 1) e
    else []

def windows (s e : Nat) : List (Nat × Nat) := windowsGo (e + 1 - s) s e

/-- The save loop over `daily_groups.items()` inside
`process_date_range`, accumulating the total number of files written. -/
def saveGroups : List (Nat × List DRecord) → FS → FS × Nat
  | [], fs => (fs, 0)
  | g :: t, fs =>
    let r := save_daily_data_by_station g.1 g.2 fs
    let r' := saveGroups t r.1
    (r'.1, r.2 + r'.2)

/-- The body of `process_date_range`, one loop iteration per fuel
unit.  `responses` maps a window to the flat record list the two-step
fetch returns for it (the same remote responses on every run).  For
each window the planner lists the dates with no archived entry yet;
if there are none the window is skipped without invoking the fetcher,
otherwise the whole window is fetched, grouped by date, and persisted
per (date, station) entity.  Returns the archive, the total number of
files written, and the windows for which the fetcher was invoked. -/
def processGo (responses : Nat × Nat → List DRecord) (e : Nat) :
    Nat → Nat → FS → FS × Nat × List (Nat × Nat)
  | 0, _, fs => (fs, 0, [])
  | fuel + 1, current, fs =>
    if current ≤ e then
      let be := min (current + (BATCH_SIZE_DAYS - 1)) e
      let datesNeeded := (List.range' current (be + 1 - current)).filter
        fun d => !check_date_exists d fs
      if datesNeeded.isEmpty then processGo responses e fuel (be + 1) fs
      else
        let groups := group_by_date (responses (current, be))
        let r := saveGroups groups fs
        let r' := processGo responses e fuel (be + 1) r.1
        (r'.1, r.2 + r'.2.1, (current, be) :: r'.2.2)
    else (fs, 0, [])

/-- Model of `process_date_range(client, start_date, end_date, output_dir)`. -/
def process_date_range (responses : Nat × Nat → List DRecord)
    (s e : Nat) (fs : FS) : FS × Nat × List (Nat × Nat) :=
  processGo responses e (e + 1 - s) s fs

/-! ## C3: window partition -/

theorem windowsGo_bind_range : ∀ fuel s e : Nat, e + 1 - s ≤ fuel →
    ((windowsGo fuel s e).flatMap fun w => List.range' w.1 (w.2 + 1 - w.1)) =
      List.range' s (e + 1 - s) := by
  intro fuel
  induction fuel with
  | zero =>
    intro s e h
    have h0 : e + 1 - s = 0 := by omega
    simp [windowsGo, h0]
  | succ fuel ih =>
    intro s e h
    simp only [windowsGo]
    by_cases hse : s ≤ e
    · rw [if_pos hse]
      have hge : s ≤ min (s + (BATCH_SIZE_DAYS - 1)) e := le_min (by omega) hse
      have hle : min (s + (BATCH_SIZE_DAYS - 1)) e ≤ e := min_le_right _ _
      simp only [List.flatMap_cons]
      rw [ih (min (s + (BATCH_SIZE_DAYS - 1)) e + 1) e (by omega)]
      have happ := List.range'_append s
        (min (s + (BATCH_SIZE_DAYS - 1)) e + 1 - s)
        (e + 1 - (min (s + (BATCH_SIZE_DAYS - 1)) e + 1)) 1
      simp only [one_mul] at happ
      rw [show s + (min (s + (BATCH_SIZE_DAYS - 1)) e + 1 - s) =
          min (s + (BATCH_SIZE_DAYS - 1)) e + 1 from by omega] at happ
      rw [show e + 1 - (min (s + (BATCH_SIZE_DAYS - 1)) e + 1) +
          (min (s + (BATCH_SIZE_DAYS - 1)) e + 1 - s) = e + 1 - s from by
        omega] at happ
      exact happ
    · rw [if_neg hse]
      have h0 : e + 1 - s = 0 := by omega
      simp [h0]

theorem windowsGo_bounds : ∀ fuel s e : Nat, ∀ w : Nat × Nat,
    w ∈ windowsGo fuel s e →
    s ≤ w.1 ∧ w.1 ≤ w.2 ∧ w.2 ≤ e ∧ w.2 + 1 - w.1 ≤ BATCH_SIZE_DAYS := by
  intro fuel
  induction fuel with
  | zero => intro s e w hw; simp [windowsGo] at hw
  | succ fuel ih =>
    intro s e w hw
    simp only [windowsGo] at hw
    by_cases hse : s ≤ e
    · rw [if_pos hse] at hw
      have hge : s ≤ min (s + (BATCH_SIZE_DAYS - 1)) e := le_min (by omega) hse
      have hle : min (s + (BATCH_SIZE_DAYS - 1)) e ≤ e := min_le_right _ _
      have hle' : min (s + (BATCH_SIZE_DAYS - 1)) e ≤ s + (BATCH_SIZE_DAYS - 1) :=
        min_le_left _ _
      rcases List.mem_cons.mp hw with h | h
      · subst h
        refine ⟨le_refl _, hge, hle, ?_⟩
        simp only [BATCH_SIZE_DAYS] at hle' ⊢
        omega
      · have hb := ih _ _ _ h
        exact ⟨by omega, hb.2.1, hb.2.2.1, hb.2.2.2⟩
    · rw [if_neg hse] at hw
      simp at hw

theorem windowsGo_head_eq : ∀ fuel s e : Nat, ∀ b : Nat × Nat,
    b ∈ (windowsGo fuel s e).head? → b.1 = s := by
  intro fuel s e b hb
  cases fuel with
  | zero => simp [windowsGo] at hb
  | succ fuel =>
    simp only [windowsGo] at hb
    by_cases hse : s ≤ e
    · rw [if_pos hse] at hb
      simp only [List.head?_cons, Option.mem_def, Option.some_inj] at hb
      rw [← hb]
    · rw [if_neg hse] at hb
      simp at hb

theorem windowsGo_chain : ∀ fuel s e : Nat,
    List.Chain' (fun a b => a.2 + 1 = b.1) (windowsGo fuel s e) := by
  intro fuel
  induction fuel with
  | zero => intro s e; simp [windowsGo]
  | succ fuel ih =>
    intro s e
    simp only [windowsGo]
    by_cases hse : s ≤ e
    · rw [if_pos hse]
      refine List.chain'_cons'.mpr ⟨?_, ih _ _⟩
      intro y hy
      rw [windowsGo_head_eq _ _ _ _ hy]
    · rw [if_neg hse]
      simp

/-- C3.  For any interval with `s ≤ e` the generated windows
concatenate, in order, to exactly the list of days `s .. e` (so they
are contiguous, non-overlapping, cover the interval exactly, and are
produced in chronological order), each window is non-empty and spans
at most `BATCH_SIZE_DAYS` = 15 days, consecutive windows abut, and the
concrete interval 2024-01-01 .. 2024-01-20 (days 0 .. 19 from
2024-01-01) yields exactly the windows 01-01..01-15 and 01-16..01-20. -/
theorem window_partition_correct (s e : Nat) (h : s ≤ e) :
    ((windows s e).flatMap fun w => List.range' w.1 (w.2 + 1 - w.1)) =
        List.range' s (e + 1 - s)
      ∧ (∀ w ∈ windows s e, w.1 ≤ w.2 ∧ w.2 + 1 - w.1 ≤ BATCH_SIZE_DAYS)
      ∧ List.Chain' (fun a b => a.2 + 1 = b.1) (windows s e)
      ∧ windows 0 19 = [(0, 14), (15, 19)] := by
  refine ⟨windowsGo_bind_range _ _ _ (le_refl _), ?_,
    windowsGo_chain _ _ _, by decide⟩
  intro w hw
  have hb := windowsGo_bounds _ _ _ _ hw
  exact ⟨hb.2.1, hb.2.2.2⟩

theorem window_partition_correct_witness :
    (0 : Nat) ≤ 19 ∧ windows 0 19 = [(0, 14), (15, 19)] :=
  ⟨by decide, (window_partition_correct 0 19 (by decide)).2.2.2⟩

/-! ## Archive store lemmas -/

theorem pmem_append (p : APath) (fs gs : FS) :
    pmem p (fs ++ gs) = (pmem p fs || pmem p gs) := by
  simp [pmem, List.any_append]

theorem pmem_mono (p : APath) (fs gs : FS) (h : pmem p fs = true) :
    pmem p (fs ++ gs) = true := by
  simp [pmem_append, h]

theorem check_date_exists_append (d : Nat) (fs gs : FS) :
    check_date_exists d (fs ++ gs) =
      (check_date_exists d fs || check_date_exists d gs) := by
  simp [check_date_exists, List.any_append]

theorem check_date_exists_mono (d : Nat) (fs gs : FS)
    (h : check_date_exists d fs = true) :
    check_date_exists d (fs ++ gs) = true := by
  simp [check_date_exists_append, h]

theorem lookupFS_append_left (p : APath) : ∀ fs gs : FS,
    pmem p fs = true → lookupFS p (fs ++ gs) = lookupFS p fs := by
  intro fs
  induction fs with
  | nil => intro gs h; simp [pmem] at h
  | cons pc fs ih =>
    intro gs h
    by_cases hp : pc.1 = p
    · simp [lookupFS, List.find?_cons, hp]
    · have h' : pmem p fs = true := by
        simpa [pmem, List.any_cons, hp] using h
      have e1 : lookupFS p (pc :: fs ++ gs) = lookupFS p (fs ++ gs) := by
        simp [lookupFS, List.find?_cons, hp]
      have e2 : lookupFS p (pc :: fs) = lookupFS p fs := by
        simp [lookupFS, List.find?_cons, hp]
      rw [List.cons_append] at e1 ⊢
      rw [e1, e2, ih gs h']

theorem putAll_ext {α : Type} (P : String → APath) (C : α → String) :
    ∀ (l : List (String × α)) (fs : FS) (n : Nat),
    ∃ Δ : FS, putAll P C l (fs, n) = (fs ++ Δ, n + Δ.length) ∧
      ∀ pc ∈ Δ, (∃ k v, pc = (P k, C v) ∧ (k, v) ∈ l) ∧
        pmem pc.1 fs = false := by
  intro l
  induction l with
  | nil => intro fs n; exact ⟨[], by simp [putAll], by simp⟩
  | cons kv rest ih =>
    intro fs n
    by_cases hp : pmem (P kv.1) fs = true
    · obtain ⟨Δ, hEq, hProp⟩ := ih fs n
      refine ⟨Δ, by simp [putAll, hp, hEq], ?_⟩
      intro pc hpc
      obtain ⟨⟨k, v, hkv, hmem⟩, habs⟩ := hProp pc hpc
      exact ⟨⟨k, v, hkv, List.mem_cons_of_mem _ hmem⟩, habs⟩
    · have hb : pmem (P kv.1) fs = false := by
        cases hq : pmem (P kv.1) fs
        · rfl
        · exact absurd hq hp
      obtain ⟨Δ, hEq, hProp⟩ := ih (fs ++ [(P kv.1, C kv.2)]) (n + 1)
      refine ⟨(P kv.1, C kv.2) :: Δ, ?_, ?_⟩
      · have : putAll P C (kv :: rest) (fs, n) =
            putAll P C rest (fs ++ [(P kv.1, C kv.2)], n + 1) := by
          simp [putAll, hp]
        rw [this, hEq]
        simp only [List.append_assoc, List.singleton_append, List.length_cons,
          Prod.mk.injEq]
        exact ⟨trivial, by omega⟩
      · intro pc hpc
        rcases List.mem_cons.mp hpc with h | h
        · subst h
          exact ⟨⟨kv.1, kv.2, rfl, List.mem_cons_self _ _⟩, hb⟩
        · obtain ⟨⟨k, v, hkv, hmem⟩, habs⟩ := hProp pc h
          refine ⟨⟨k, v, hkv, List.mem_cons_of_mem _ hmem⟩, ?_⟩
          rw [pmem_append] at habs
          exact (Bool.or_eq_false_iff.mp habs).1

theorem putAll_mem_key {α : Type} (P : String → APath) (C : α → String) :
    ∀ (l : List (String × α)) (fs : FS) (n : Nat) (k : String) (v : α),
    (k, v) ∈ l → pmem (P k) (putAll P C l (fs, n)).1 = true := by
  intro l
  induction l with
  | nil => intro fs n k v h; simp at h
  | cons kv rest ih =>
    intro fs n k v h
    rcases List.mem_cons.mp h with h | h
    · have hk : kv.1 = k := by rw [← h]
      by_cases hp : pmem (P kv.1) fs = true
      · have hstep : putAll P C (kv :: rest) (fs, n) =
            putAll P C rest (fs, n) := by
          simp [putAll, hp]
        obtain ⟨Δ, hEq, _⟩ := putAll_ext P C rest fs n
        rw [hstep, hEq]
        exact pmem_mono _ _ _ (by rw [← hk]; exact hp)
      · have hstep : putAll P C (kv :: rest) (fs, n) =
            putAll P C rest (fs ++ [(P kv.1, C kv.2)], n + 1) := by
          simp [putAll, hp]
        obtain ⟨Δ, hEq, _⟩ := putAll_ext P C rest (fs ++ [(P kv.1, C kv.2)]) (n + 1)
        rw [hstep, hEq]
        have : pmem (P k) (fs ++ [(P kv.1, C kv.2)]) = true := by
          rw [pmem_append, hk]
          simp [pmem]
        exact pmem_mono _ _ _ this
    · by_cases hp : pmem (P kv.1) fs = true
      · have hstep : putAll P C (kv :: rest) (fs, n) =
            putAll P C rest (fs, n) := by
          simp [putAll, hp]
        rw [hstep]
        exact ih fs n k v h
      · have hstep : putAll P C (kv :: rest) (fs, n) =
            putAll P C rest (fs ++ [(P kv.1, C kv.2)], n + 1) := by
          simp [putAll, hp]
        rw [hstep]
        exact ih _ _ k v h

theorem putAll_noop {α : Type} (P : String → APath) (C : α → String) :
    ∀ (l : List (String × α)) (fs : FS) (n : Nat),
    (∀ kv ∈ l, pmem (P kv.1) fs = true) → putAll P C l (fs, n) = (fs, n) := by
  intro l
  induction l with
  | nil => intro fs n _; simp [putAll]
  | cons kv rest ih =>
    intro fs n h
    have hp : pmem (P kv.1) fs = true := h kv (List.mem_cons_self _ _)
    have hstep : putAll P C (kv :: rest) (fs, n) = putAll P C rest (fs, n) := by
      simp [putAll, hp]
    rw [hstep]
    exact ih fs n fun kv' h' => h kv' (List.mem_cons_of_mem _ h')

theorem putAll_write {α : Type} (P : String → APath) (C : α → String)
    (hP : ∀ a b, P a = P b → a = b) :
    ∀ (l : List (String × α)) (fs : FS) (n : Nat) (k : String) (v : α),
    (l.map Prod.fst).Nodup → (k, v) ∈ l → pmem (P k) fs = false →
    (P k, C v) ∈ (putAll P C l (fs, n)).1 := by
  intro l
  induction l with
  | nil => intro fs n k v _ h _; simp at h
  | cons kv rest ih =>
    intro fs n k v hnd h habs
    rcases List.mem_cons.mp h with h | h
    · have hk : kv = (k, v) := h.symm
      subst hk
      have hp : ¬ pmem (P k) fs = true := by rw [habs]; decide
      have hstep : putAll P C ((k, v) :: rest) (fs, n) =
          putAll P C rest (fs ++ [(P k, C v)], n + 1) := by
        simp [putAll, hp]
      obtain ⟨Δ, hEq, _⟩ := putAll_ext P C rest (fs ++ [(P k, C v)]) (n + 1)
      rw [hstep, hEq]
      exact List.mem_append_left _ (List.mem_append_right _ (by simp))
    · have hk_ne : kv.1 ≠ k := by
        intro hkk
        have h1 : kv.1 ∉ rest.map Prod.fst := by
          have := hnd
          rw [List.map_cons] at this
          exact (List.nodup_cons.mp this).1
        have h2 : k ∈ rest.map Prod.fst :=
          List.mem_map.mpr ⟨(k, v), h, rfl⟩
        rw [hkk] at h1
        exact h1 h2
      have hnd' : (rest.map Prod.fst).Nodup := by
        rw [List.map_cons] at hnd
        exact (List.nodup_cons.mp hnd).2
      by_cases hp : pmem (P kv.1) fs = true
      · have hstep : putAll P C (kv :: rest) (fs, n) =
            putAll P C rest (fs, n) := by
          simp [putAll, hp]
        rw [hstep]
        exact ih fs n k v hnd' h habs
      · have hstep : putAll P C (kv :: rest) (fs, n) =
            putAll P C rest (fs ++ [(P kv.1, C kv.2)], n + 1) := by
          simp [putAll, hp]
        rw [hstep]
        refine ih _ _ k v hnd' h ?_
        rw [pmem_append, habs]
        simp only [Bool.false_or, pmem, List.any_cons, List.any_nil,
          Bool.or_false, decide_eq_false_iff_not]
        intro hcontra
        exact hk_ne (hP _ _ hcontra)

theorem putAll_unchanged {α : Type} (P : String → APath) (C : α → String)
    (l : List (String × α)) (fs : FS) (n : Nat) (p : APath)
    (h : pmem p fs = true) :
    lookupFS p (putAll P C l (fs, n)).1 = lookupFS p fs := by
  obtain ⟨Δ, hEq, _⟩ := putAll_ext P C l fs n
  rw [hEq]
  exact lookupFS_append_left p fs Δ h


/-! ## Grouping lemmas -/

theorem upsert_cons_eq {α : Type} (k' : String) (v' : α)
    (t : List (String × α)) (k : String) (v : α) (h : k' = k) :
    upsert ((k', v') :: t) k v = (k', v) :: t := by
  simp [upsert, h]

theorem upsert_cons_ne {α : Type} (k' : String) (v' : α)
    (t : List (String × α)) (k : String) (v : α) (h : ¬ k' = k) :
    upsert ((k', v') :: t) k v = (k', v') :: upsert t k v := by
  simp [upsert, h]

theorem mem_upsert {α : Type} : ∀ (l : List (String × α)) (k : String)
    (v : α) (a : String) (b : α), (a, b) ∈ upsert l k v →
    (a, b) ∈ l ∨ (a = k ∧ b = v) := by
  intro l k v
  induction l with
  | nil =>
    intro a b h
    simp [upsert] at h
    exact Or.inr h
  | cons kv t ih =>
    obtain ⟨k', v'⟩ := kv
    intro a b h
    by_cases hk : k' = k
    · rw [upsert_cons_eq k' v' t k v hk] at h
      rcases List.mem_cons.mp h with h | h
      · simp only [Prod.mk.injEq] at h
        exact Or.inr ⟨h.1.trans hk, h.2⟩
      · exact Or.inl (List.mem_cons_of_mem _ h)
    · rw [upsert_cons_ne k' v' t k v hk] at h
      rcases List.mem_cons.mp h with h | h
      · exact Or.inl (h ▸ List.mem_cons_self _ _)
      · rcases ih a b h with h | h
        · exact Or.inl (List.mem_cons_of_mem _ h)
        · exact Or.inr h

theorem mem_keys_upsert {α : Type} : ∀ (l : List (String × α)) (k : String)
    (v : α) (a : String), a ∈ (upsert l k v).map Prod.fst →
    a ∈ l.map Prod.fst ∨ a = k := by
  intro l k v
  induction l with
  | nil =>
    intro a h
    simp [upsert] at h
    exact Or.inr h
  | cons kv t ih =>
    obtain ⟨k', v'⟩ := kv
    intro a h
    by_cases hk : k' = k
    · rw [upsert_cons_eq k' v' t k v hk] at h
      simp only [List.map_cons, List.mem_cons] at h ⊢
      exact Or.inl h
    · rw [upsert_cons_ne k' v' t k v hk] at h
      simp only [List.map_cons, List.mem_cons] at h ⊢
      rcases h with h | h
      · exact Or.inl (Or.inl h)
      · rcases ih a h with h | h
        · exact Or.inl (Or.inr h)
        · exact Or.inr h

theorem upsert_keys_nodup {α : Type} : ∀ (l : List (String × α)) (k : String)
    (v : α), (l.map Prod.fst).Nodup → ((upsert l k v).map Prod.fst).Nodup := by
  intro l k v
  induction l with
  | nil => intro _; simp [upsert]
  | cons kv t ih =>
    obtain ⟨k', v'⟩ := kv
    intro hnd
    rw [List.map_cons, List.nodup_cons] at hnd
    by_cases hk : k' = k
    · rw [upsert_cons_eq k' v' t k v hk, List.map_cons, List.nodup_cons]
      exact hnd
    · rw [upsert_cons_ne k' v' t k v hk, List.map_cons, List.nodup_cons]
      refine ⟨?_, ih hnd.2⟩
      intro hmem
      rcases mem_keys_upsert t k v k' hmem with h | h
      · exact hnd.1 h
      · exact hk h

theorem upsert_ne_nil {α : Type} (l : List (String × α)) (k : String)
    (v : α) : upsert l k v ≠ [] := by
  cases l with
  | nil => simp [upsert]
  | cons kv t =>
    obtain ⟨k', v'⟩ := kv
    by_cases hk : k' = k
    · rw [upsert_cons_eq k' v' t k v hk]
      simp
    · rw [upsert_cons_ne k' v' t k v hk]
      simp

theorem stationsDataGo_nodup : ∀ (data : List DRecord)
    (acc : List (String × DRecord)), (acc.map Prod.fst).Nodup →
    ((stationsDataGo data acc).map Prod.fst).Nodup := by
  intro data
  induction data with
  | nil => intro acc h; exact h
  | cons r rest ih =>
    intro acc h
    cases hi : r.indicativo with
    | none => simpa [stationsDataGo, hi] using ih acc h
    | some i =>
      simp only [stationsDataGo, hi]
      exact ih _ (upsert_keys_nodup acc i r h)

theorem stationsData_nodup (data : List DRecord) :
    ((stationsData data).map Prod.fst).Nodup :=
  stationsDataGo_nodup data [] (by simp)

theorem stationsDataGo_mem : ∀ (data : List DRecord)
    (acc : List (String × DRecord)) (i : String) (r : DRecord),
    (i, r) ∈ stationsDataGo data acc →
    (i, r) ∈ acc ∨ (r ∈ data ∧ r.indicativo = some i) := by
  intro data
  induction data with
  | nil => intro acc i r h; exact Or.inl h
  | cons r0 rest ih =>
    intro acc i r h
    cases hi : r0.indicativo with
    | none =>
      simp only [stationsDataGo, hi] at h
      rcases ih acc i r h with h | h
      · exact Or.inl h
      · exact Or.inr ⟨List.mem_cons_of_mem _ h.1, h.2⟩
    | some i0 =>
      simp only [stationsDataGo, hi] at h
      rcases ih _ i r h with h | h
      · rcases mem_upsert acc i0 r0 i r h with h | h
        · exact Or.inl h
        · refine Or.inr ⟨?_, ?_⟩
          · rw [h.2]; exact List.mem_cons_self _ _
          · rw [h.2, hi, h.1]
      · exact Or.inr ⟨List.mem_cons_of_mem _ h.1, h.2⟩

theorem stationsData_mem (data : List DRecord) (i : String) (r : DRecord)
    (h : (i, r) ∈ stationsData data) : r ∈ data ∧ r.indicativo = some i := by
  rcases stationsDataGo_mem data [] i r h with h | h
  · simp at h
  · exact h

theorem insertRec_cons_eq (k0 : Nat) (rs0 : List DRecord)
    (t : List (Nat × List DRecord)) (d : Nat) (r : DRecord) (h : k0 = d) :
    insertRec ((k0, rs0) :: t) d r = (k0, rs0 ++ [r]) :: t := by
  simp [insertRec, h]

theorem insertRec_cons_ne (k0 : Nat) (rs0 : List DRecord)
    (t : List (Nat × List DRecord)) (d : Nat) (r : DRecord) (h : ¬ k0 = d) :
    insertRec ((k0, rs0) :: t) d r = (k0, rs0) :: insertRec t d r := by
  simp [insertRec, h]

theorem mem_insertRec : ∀ (g : List (Nat × List DRecord)) (d : Nat)
    (r : DRecord) (k : Nat) (rs : List DRecord),
    (k, rs) ∈ insertRec g d r →
    (k, rs) ∈ g ∨ ∃ rs0 : List DRecord, rs = rs0 ++ [r] ∧ k = d ∧
      ((k, rs0) ∈ g ∨ rs0 = []) := by
  intro g d r
  induction g with
  | nil =>
    intro k rs h
    simp only [insertRec, List.mem_singleton, Prod.mk.injEq] at h
    exact Or.inr ⟨[], by simpa using h.2, h.1, Or.inr rfl⟩
  | cons kg t ih =>
    obtain ⟨k0, rs0'⟩ := kg
    intro k rs h
    by_cases hk : k0 = d
    · rw [insertRec_cons_eq k0 rs0' t d r hk] at h
      rcases List.mem_cons.mp h with h | h
      · simp only [Prod.mk.injEq] at h
        refine Or.inr ⟨rs0', h.2, h.1.trans hk, Or.inl ?_⟩
        rw [h.1]
        exact List.mem_cons_self _ _
      · exact Or.inl (List.mem_cons_of_mem _ h)
    · rw [insertRec_cons_ne k0 rs0' t d r hk] at h
      rcases List.mem_cons.mp h with h | h
      · exact Or.inl (h ▸ List.mem_cons_self _ _)
      · rcases ih k rs h with h | ⟨rs0, h1, h2, h3⟩
        · exact Or.inl (List.mem_cons_of_mem _ h)
        · refine Or.inr ⟨rs0, h1, h2, ?_⟩
          rcases h3 with h3 | h3
          · exact Or.inl (List.mem_cons_of_mem _ h3)
          · exact Or.inr h3

theorem groupGo_inv : ∀ (data : List DRecord)
    (acc : List (Nat × List DRecord)),
    (∀ k rs, (k, rs) ∈ acc → ∀ x ∈ rs, x.fecha = some k) →
    ∀ k rs, (k, rs) ∈ groupGo data acc → ∀ x ∈ rs, x.fecha = some k := by
  intro data
  induction data with
  | nil => intro acc h; exact h
  | cons r rest ih =>
    intro acc h
    cases hf : r.fecha with
    | none =>
      simp only [groupGo, hf]
      exact ih acc h
    | some d =>
      simp only [groupGo, hf]
      refine ih _ ?_
      intro k rs hmem x hx
      rcases mem_insertRec acc d r k rs hmem with hm | ⟨rs0, h1, h2, h3⟩
      · exact h k rs hm x hx
      · subst h1 h2
        rcases List.mem_append.mp hx with hx | hx
        · rcases h3 with h3 | h3
          · exact h k rs0 h3 x hx
          · subst h3; simp at hx
        · rw [List.mem_singleton.mp hx, hf]

theorem group_by_date_inv (data : List DRecord) (d : Nat)
    (rs : List DRecord) (h : (d, rs) ∈ group_by_date data) :
    ∀ x ∈ rs, x.fecha = some d :=
  groupGo_inv data [] (by simp) d rs h

/-! ## saveGroups lemmas -/

theorem saveGroups_cons (g : Nat × List DRecord)
    (t : List (Nat × List DRecord)) (fs : FS) :
    saveGroups (g :: t) fs =
      ((saveGroups t (save_daily_data_by_station g.1 g.2 fs).1).1,
        (save_daily_data_by_station g.1 g.2 fs).2 +
          (saveGroups t (save_daily_data_by_station g.1 g.2 fs).1).2) := rfl

theorem saveGroups_ext : ∀ (groups : List (Nat × List DRecord)) (fs : FS),
    ∃ Δ : FS, saveGroups groups fs = (fs ++ Δ, Δ.length) ∧
      ∀ pc ∈ Δ, (∃ d i, pc.1 = APath.daily d i) ∧ pmem pc.1 fs = false := by
  intro groups
  induction groups with
  | nil => intro fs; exact ⟨[], by simp [saveGroups], by simp⟩
  | cons g t ih =>
    intro fs
    obtain ⟨Δ1, hEq1, hProp1⟩ :=
      putAll_ext (APath.daily g.1) (·.blob) (stationsData g.2) fs 0
    obtain ⟨Δ2, hEq2, hProp2⟩ := ih (fs ++ Δ1)
    refine ⟨Δ1 ++ Δ2, ?_, ?_⟩
    · rw [saveGroups_cons]
      rw [save_daily_data_by_station, hEq1]
      simp only
      rw [hEq2]
      simp only [Prod.mk.injEq, List.append_assoc, List.length_append]
      exact ⟨trivial, by omega⟩
    · intro pc hpc
      rcases List.mem_append.mp hpc with h | h
      · obtain ⟨⟨k, v, hkv, _⟩, habs⟩ := hProp1 pc h
        exact ⟨⟨g.1, k, by rw [hkv]⟩, habs⟩
      · obtain ⟨hshape, habs⟩ := hProp2 pc h
        refine ⟨hshape, ?_⟩
        rw [pmem_append] at habs
        exact (Bool.or_eq_false_iff.mp habs).1

theorem saveGroups_complete : ∀ (groups : List (Nat × List DRecord))
    (fs : FS) (d : Nat) (rs : List DRecord) (i : String) (r : DRecord),
    (d, rs) ∈ groups → (i, r) ∈ stationsData rs →
    pmem (APath.daily d i) (saveGroups groups fs).1 = true := by
  intro groups
  induction groups with
  | nil => intro fs d rs i r h _; simp at h
  | cons g t ih =>
    intro fs d rs i r h hir
    rw [saveGroups_cons]
    rcases List.mem_cons.mp h with h | h
    · have hg1 : g.1 = d := by rw [← h]
      have hg2 : g.2 = rs := by rw [← h]
      have hkey : pmem (APath.daily d i)
          (save_daily_data_by_station g.1 g.2 fs).1 = true := by
        rw [save_daily_data_by_station]
        rw [hg1]
        exact putAll_mem_key (APath.daily d) (·.blob) (stationsData g.2)
          fs 0 i r (hg2 ▸ hir)
      obtain ⟨Δ, hEq, _⟩ :=
        saveGroups_ext t (save_daily_data_by_station g.1 g.2 fs).1
      simp only [hEq]
      exact pmem_mono _ _ _ hkey
    · exact ih _ d rs i r h hir

theorem saveGroups_noop : ∀ (groups : List (Nat × List DRecord)) (fs : FS),
    (∀ gp ∈ groups, ∀ ir ∈ stationsData gp.2,
      pmem (APath.daily gp.1 ir.1) fs = true) →
    saveGroups groups fs = (fs, 0) := by
  intro groups
  induction groups with
  | nil => intro fs _; simp [saveGroups]
  | cons g t ih =>
    intro fs h
    have hsave : save_daily_data_by_station g.1 g.2 fs = (fs, 0) := by
      rw [save_daily_data_by_station]
      exact putAll_noop (APath.daily g.1) (·.blob) (stationsData g.2) fs 0
        fun kv hkv => h g (List.mem_cons_self _ _) kv hkv
    rw [saveGroups_cons, hsave]
    have ht := ih fs fun gp hgp ir hir =>
      h gp (List.mem_cons_of_mem _ hgp) ir hir
    rw [ht]
    rfl

/-! ## processGo branch lemmas -/

theorem isEmpty_false_of_mem {α : Type} {l : List α} {a : α} (h : a ∈ l) :
    l.isEmpty = false := by
  cases hE : l.isEmpty with
  | false => rfl
  | true =>
    rw [List.isEmpty_iff.mp hE] at h
    simp at h

theorem processGo_zero (rsp : Nat × Nat → List DRecord) (e c : Nat)
    (fs : FS) : processGo rsp e 0 c fs = (fs, 0, []) := rfl

theorem processGo_stop (rsp : Nat × Nat → List DRecord) (e fuel c : Nat)
    (fs : FS) (h : ¬ c ≤ e) : processGo rsp e (fuel + 1) c fs = (fs, 0, []) := by
  simp [processGo, h]

theorem processGo_skip_step (rsp : Nat × Nat → List DRecord) (e fuel c : Nat)
    (fs : FS) (h : c ≤ e)
    (hskip : ((List.range' c (min (c + (BATCH_SIZE_DAYS - 1)) e + 1 - c)).filter
      fun d => !check_date_exists d fs).isEmpty = true) :
    processGo rsp e (fuel + 1) c fs =
      processGo rsp e fuel (min (c + (BATCH_SIZE_DAYS - 1)) e + 1) fs := by
  simp [processGo, h, hskip]

theorem processGo_fetch_step (rsp : Nat × Nat → List DRecord) (e fuel c : Nat)
    (fs : FS) (h : c ≤ e)
    (hskip : ((List.range' c (min (c + (BATCH_SIZE_DAYS - 1)) e + 1 - c)).filter
      fun d => !check_date_exists d fs).isEmpty = false) :
    processGo rsp e (fuel + 1) c fs =
      ((processGo rsp e fuel (min (c + (BATCH_SIZE_DAYS - 1)) e + 1)
          (saveGroups (group_by_date
            (rsp (c, min (c + (BATCH_SIZE_DAYS - 1)) e))) fs).1).1,
        (saveGroups (group_by_date
            (rsp (c, min (c + (BATCH_SIZE_DAYS - 1)) e))) fs).2 +
          (processGo rsp e fuel (min (c + (BATCH_SIZE_DAYS - 1)) e + 1)
            (saveGroups (group_by_date
              (rsp (c, min (c + (BATCH_SIZE_DAYS - 1)) e))) fs).1).2.1,
        (c, min (c + (BATCH_SIZE_DAYS - 1)) e) ::
          (processGo rsp e fuel (min (c + (BATCH_SIZE_DAYS - 1)) e + 1)
            (saveGroups (group_by_date
              (rsp (c, min (c + (BATCH_SIZE_DAYS - 1)) e))) fs).1).2.2) := by
  simp [processGo, h, hskip]

theorem datesNeeded_empty (c be : Nat) (fs : FS)
    (h : ∀ d, c ≤ d → d ≤ be → check_date_exists d fs = true) :
    ((List.range' c (be + 1 - c)).filter
      fun d => !check_date_exists d fs).isEmpty = true := by
  rw [List.isEmpty_iff, List.filter_eq_nil_iff]
  intro a ha
  rw [List.mem_range'_1] at ha
  have := h a ha.1 (by omega)
  simp [this]

theorem datesNeeded_nonempty (c be : Nat) (fs : FS) (d : Nat) (h1 : c ≤ d)
    (h2 : d ≤ be) (h3 : check_date_exists d fs = false) :
    ((List.range' c (be + 1 - c)).filter
      fun x => !check_date_exists x fs).isEmpty = false := by
  have hd : d ∈ (List.range' c (be + 1 - c)).filter
      fun x => !check_date_exists x fs := by
    rw [List.mem_filter]
    exact ⟨List.mem_range'_1.mpr ⟨h1, by omega⟩, by simp [h3]⟩
  exact isEmpty_false_of_mem hd

theorem processGo_ext (rsp : Nat × Nat → List DRecord) (e : Nat) :
    ∀ fuel c : Nat, ∀ fs : FS, ∃ Δ : FS,
    (processGo rsp e fuel c fs).1 = fs ++ Δ ∧
      ∀ pc ∈ Δ, ∃ d i, pc.1 = APath.daily d i := by
  intro fuel
  induction fuel with
  | zero => intro c fs; exact ⟨[], by simp [processGo_zero], by simp⟩
  | succ fuel ih =>
    intro c fs
    by_cases hce : c ≤ e
    · cases hskip : ((List.range' c (min (c + (BATCH_SIZE_DAYS - 1)) e + 1 - c)).filter
        fun d => !check_date_exists d fs).isEmpty with
      | true =>
        rw [processGo_skip_step rsp e fuel c fs hce hskip]
        exact ih _ fs
      | false =>
        rw [processGo_fetch_step rsp e fuel c fs hce hskip]
        obtain ⟨Δ1, hEq1, hProp1⟩ := saveGroups_ext
          (group_by_date (rsp (c, min (c + (BATCH_SIZE_DAYS - 1)) e))) fs
        obtain ⟨Δ2, hEq2, hProp2⟩ := ih (min (c + (BATCH_SIZE_DAYS - 1)) e + 1)
          (saveGroups (group_by_date
            (rsp (c, min (c + (BATCH_SIZE_DAYS - 1)) e))) fs).1
        refine ⟨Δ1 ++ Δ2, ?_, ?_⟩
        · simp only
          rw [hEq2, hEq1]
          simp [List.append_assoc]
        · intro pc hpc
          rcases List.mem_append.mp hpc with h | h
          · exact (hProp1 pc h).1
          · exact hProp2 pc h
    · exact ⟨[], by rw [processGo_stop rsp e fuel c fs hce]; simp, by simp⟩

theorem processGo_fetched_lb (rsp : Nat × Nat → List DRecord) (e : Nat) :
    ∀ fuel c : Nat, ∀ fs : FS, ∀ w : Nat × Nat,
    w ∈ (processGo rsp e fuel c fs).2.2 → c ≤ w.1 := by
  intro fuel
  induction fuel with
  | zero => intro c fs w hw; simp [processGo_zero] at hw
  | succ fuel ih =>
    intro c fs w hw
    by_cases hce : c ≤ e
    · have hbe : c ≤ min (c + (BATCH_SIZE_DAYS - 1)) e := le_min (by omega) hce
      cases hskip : ((List.range' c (min (c + (BATCH_SIZE_DAYS - 1)) e + 1 - c)).filter
        fun d => !check_date_exists d fs).isEmpty with
      | true =>
        rw [processGo_skip_step rsp e fuel c fs hce hskip] at hw
        have := ih _ _ _ hw
        omega
      | false =>
        rw [processGo_fetch_step rsp e fuel c fs hce hskip] at hw
        rcases List.mem_cons.mp hw with h | h
        · rw [h]
        · have := ih _ _ _ h
          omega
    · rw [processGo_stop rsp e fuel c fs hce] at hw
      simp at hw

theorem processGo_no_fetch (rsp : Nat × Nat → List DRecord) (e : Nat) :
    ∀ fuel c : Nat, ∀ fs : FS, ∀ w : Nat × Nat,
    w ∈ windowsGo fuel c e →
    (∀ d, w.1 ≤ d → d ≤ w.2 → check_date_exists d fs = true) →
    w ∉ (processGo rsp e fuel c fs).2.2 := by
  intro fuel
  induction fuel with
  | zero => intro c fs w hw _; simp [windowsGo] at hw
  | succ fuel ih =>
    intro c fs w hw hex
    by_cases hce : c ≤ e
    · have hbe : c ≤ min (c + (BATCH_SIZE_DAYS - 1)) e := le_min (by omega) hce
      simp only [windowsGo] at hw
      rw [if_pos hce] at hw
      rcases List.mem_cons.mp hw with hw | hw
      · subst hw
        have hskip := datesNeeded_empty c (min (c + (BATCH_SIZE_DAYS - 1)) e)
          fs hex
        rw [processGo_skip_step rsp e fuel c fs hce hskip]
        intro hmem
        have := processGo_fetched_lb rsp e fuel _ _ _ hmem
        simp only at this
        omega
      · have hlb : min (c + (BATCH_SIZE_DAYS - 1)) e + 1 ≤ w.1 :=
          (windowsGo_bounds fuel _ e w hw).1
        cases hskip : ((List.range' c (min (c + (BATCH_SIZE_DAYS - 1)) e + 1 - c)).filter
          fun d => !check_date_exists d fs).isEmpty with
        | true =>
          rw [processGo_skip_step rsp e fuel c fs hce hskip]
          exact ih _ fs w hw hex
        | false =>
          rw [processGo_fetch_step rsp e fuel c fs hce hskip]
          intro hmem
          rcases List.mem_cons.mp hmem with h | h
          · rw [h] at hlb
            simp only at hlb
            omega
          · obtain ⟨Δ1, hEq1, _⟩ := saveGroups_ext
              (group_by_date (rsp (c, min (c + (BATCH_SIZE_DAYS - 1)) e))) fs
            have hex' : ∀ d, w.1 ≤ d → d ≤ w.2 →
                check_date_exists d (saveGroups (group_by_date
                  (rsp (c, min (c + (BATCH_SIZE_DAYS - 1)) e))) fs).1 = true := by
              intro d hd1 hd2
              rw [hEq1]
              exact check_date_exists_mono d fs Δ1 (hex d hd1 hd2)
            exact ih _ _ w hw hex' h
    · simp only [windowsGo] at hw
      rw [if_neg hce] at hw
      simp at hw

/-- C4.  If every date inside a window of the partition already has at
least one archived daily entry, `process_date_range` skips that window:
the fetcher is never invoked for it (the window does not appear in the
list of fetched windows). -/
theorem window_skip_no_fetch (responses : Nat × Nat → List DRecord)
    (s e : Nat) (fs : FS) (w : Nat × Nat) (hw : w ∈ windows s e)
    (hex : ∀ d, w.1 ≤ d → d ≤ w.2 → check_date_exists d fs = true) :
    w ∉ (process_date_range responses s e fs).2.2 :=
  processGo_no_fetch responses e (e + 1 - s) s fs w hw hex

theorem window_skip_no_fetch_witness :
    (0, 0) ∉ (process_date_range
      (fun _ => [⟨some 0, some "B", "b"⟩]) 0 0
      [(APath.daily 0 "A", "a")]).2.2 :=
  window_skip_no_fetch (fun _ => [⟨some 0, some "B", "b"⟩]) 0 0
    [(APath.daily 0 "A", "a")] (0, 0) (by decide)
    (fun d h1 h2 => by
      have hd : d = 0 := Nat.le_antisymm h2 h1
      subst hd
      decide)

/-! ## C5 and C6 -/

theorem processGo_stop' (rsp : Nat × Nat → List DRecord) (e fuel c : Nat)
    (fs : FS) (h : ¬ c ≤ e) : processGo rsp e fuel c fs = (fs, 0, []) := by
  cases fuel with
  | zero => exact processGo_zero rsp e c fs
  | succ fuel => exact processGo_stop rsp e fuel c fs h

/-- A weather record for date 0 at station A. -/
def recA0 : DRecord := ⟨some 0, some "A", "a"⟩

/-- A weather record for date 0 at station B. -/
def recB0 : DRecord := ⟨some 0, some "B", "b"⟩

/-- C5.  The claim says a window with some but not all (date, station)
entities archived is re-fetched, persisting the missing ones, the skip
check having per-entity granularity.  In the code `check_date_exists`
has per-date granularity (any single `*.json` under the day directory
marks the whole date as done): with entity (0, A) archived and entity
(0, B) still missing although present in the remote response, the
window is skipped outright, the fetcher is not invoked, and the missing
entity is never persisted. -/
theorem partial_window_skipped_cex :
    process_date_range (fun _ => [recA0, recB0]) 0 0
        [(APath.daily 0 "A", "a")] =
      ([(APath.daily 0 "A", "a")], 0, [])
    ∧ pmem (APath.daily 0 "B")
        (process_date_range (fun _ => [recA0, recB0]) 0 0
          [(APath.daily 0 "A", "a")]).1 = false := by
  decide

/-- C5 (amended).  The granularity of the skip check is per date, not
per (date, station) entity: a single-window range is skipped exactly
when every date in it has at least one archived entity, regardless of
which stations are missing; it is fetched again only when some date
has no entity at all, and in that case persistence is per-entity
write-if-absent — existing entries are untouched and every grouped
(date, station) entity of the response ends up archived. -/
theorem skip_granularity_amended (s e : Nat) (fs : FS)
    (responses : Nat × Nat → List DRecord) (h1 : s ≤ e)
    (h2 : e ≤ s + (BATCH_SIZE_DAYS - 1)) :
    ((∀ d, s ≤ d → d ≤ e → check_date_exists d fs = true) →
      process_date_range responses s e fs = (fs, 0, []))
    ∧ ((∃ d, s ≤ d ∧ d ≤ e ∧ check_date_exists d fs = false) →
      (process_date_range responses s e fs).2.2 = [(s, e)]
      ∧ (∃ Δ : FS, (process_date_range responses s e fs).1 = fs ++ Δ
          ∧ ∀ pc ∈ Δ, pmem pc.1 fs = false)
      ∧ (∀ d rs, (d, rs) ∈ group_by_date (responses (s, e)) →
          ∀ i r, (i, r) ∈ stationsData rs →
            pmem (APath.daily d i)
              (process_date_range responses s e fs).1 = true)) := by
  have hmin : min (s + (BATCH_SIZE_DAYS - 1)) e = e := min_eq_right h2
  have hfuel : e + 1 - s = (e - s) + 1 := by omega
  constructor
  · intro hex
    have hskip : ((List.range' s
        (min (s + (BATCH_SIZE_DAYS - 1)) e + 1 - s)).filter
          fun d => !check_date_exists d fs).isEmpty = true := by
      rw [hmin]
      exact datesNeeded_empty s e fs hex
    rw [process_date_range, hfuel,
      processGo_skip_step responses e (e - s) s fs h1 hskip, hmin]
    exact processGo_stop' responses e (e - s) (e + 1) fs (by omega)
  · intro hmiss
    obtain ⟨d, hd1, hd2, hd3⟩ := hmiss
    have hskip : ((List.range' s
        (min (s + (BATCH_SIZE_DAYS - 1)) e + 1 - s)).filter
          fun x => !check_date_exists x fs).isEmpty = false := by
      rw [hmin]
      exact datesNeeded_nonempty s e fs d hd1 hd2 hd3
    have hstep := processGo_fetch_step responses e (e - s) s fs h1 hskip
    rw [hmin] at hstep
    rw [processGo_stop' responses e (e - s) (e + 1) _ (by omega)] at hstep
    rw [process_date_range, hfuel, hstep]
    refine ⟨rfl, ?_, ?_⟩
    · obtain ⟨Δ, hEq, hProp⟩ :=
        saveGroups_ext (group_by_date (responses (s, e))) fs
      exact ⟨Δ, by rw [hEq], fun pc hpc => (hProp pc hpc).2⟩
    · intro d' rs hmem i r hir
      exact saveGroups_complete _ fs d' rs i r hmem hir

theorem skip_granularity_amended_witness :
    (process_date_range (fun _ => [recA0]) 0 0 []).2.2 = [(0, 0)] :=
  ((skip_granularity_amended 0 0 [] (fun _ => [recA0]) (by decide)
      (by decide)).2 ⟨0, by decide, by decide, by decide⟩).1

theorem daily_inj (date : Nat) : ∀ a b : String,
    APath.daily date a = APath.daily date b → a = b := by
  intro a b h
  simpa using h

theorem station_inj : ∀ a b : String,
    APath.station a = APath.station b → a = b := by
  intro a b h
  simpa using h

/-- C6.  Both persist operations write each archive entry at most
once: the archive only ever grows by entries whose paths were absent,
`saved_count` counts exactly the new entries, a key whose file already
exists keeps its content (the lookup is unchanged — no overwrite) and
is not counted, and a key whose file is absent gets the record's
serialized payload written. -/
theorem put_write_once (date : Nat) (data : List DRecord)
    (stations : List (String × SRecord))
    (hnd : (stations.map Prod.fst).Nodup) (fs fs2 : FS) :
    (∃ Δ : FS, save_daily_data_by_station date data fs = (fs ++ Δ, Δ.length)
        ∧ ∀ pc ∈ Δ, pmem pc.1 fs = false)
    ∧ (∀ i r, (i, r) ∈ stationsData data →
        (pmem (APath.daily date i) fs = true →
          lookupFS (APath.daily date i)
              (save_daily_data_by_station date data fs).1 =
            lookupFS (APath.daily date i) fs)
        ∧ (pmem (APath.daily date i) fs = false →
          (APath.daily date i, r.blob) ∈
            (save_daily_data_by_station date data fs).1))
    ∧ (∃ Δ : FS, save_station_info stations fs2 = (fs2 ++ Δ, Δ.length)
        ∧ ∀ pc ∈ Δ, pmem pc.1 fs2 = false)
    ∧ (∀ i r, (i, r) ∈ stations →
        (pmem (APath.station i) fs2 = true →
          lookupFS (APath.station i) (save_station_info stations fs2).1 =
            lookupFS (APath.station i) fs2)
        ∧ (pmem (APath.station i) fs2 = false →
          (APath.station i, r.blob) ∈
            (save_station_info stations fs2).1)) := by
  refine ⟨?_, ?_, ?_, ?_⟩
  · obtain ⟨Δ, hEq, hProp⟩ :=
      putAll_ext (APath.daily date) (·.blob) (stationsData data) fs 0
    refine ⟨Δ, ?_, fun pc hpc => (hProp pc hpc).2⟩
    rw [save_daily_data_by_station, hEq, Nat.zero_add]
  · intro i r hir
    constructor
    · intro hp
      rw [save_daily_data_by_station]
      exact putAll_unchanged (APath.daily date) (·.blob) (stationsData data)
        fs 0 (APath.daily date i) hp
    · intro hp
      rw [save_daily_data_by_station]
      exact putAll_write (APath.daily date) (·.blob) (daily_inj date)
        (stationsData data) fs 0 i r (stationsData_nodup data) hir hp
  · obtain ⟨Δ, hEq, hProp⟩ := putAll_ext APath.station (·.blob) stations fs2 0
    refine ⟨Δ, ?_, fun pc hpc => (hProp pc hpc).2⟩
    rw [save_station_info, hEq, Nat.zero_add]
  · intro i r hir
    constructor
    · intro hp
      rw [save_station_info]
      exact putAll_unchanged APath.station (·.blob) stations fs2 0
        (APath.station i) hp
    · intro hp
      rw [save_station_info]
      exact putAll_write APath.station (·.blob) station_inj stations fs2 0
        i r hnd hir hp

theorem put_write_once_witness :
    (APath.daily 0 "A", "a") ∈ (save_daily_data_by_station 0 [recA0] []).1 :=
  ((put_write_once 0 [recA0] [] (by simp) [] []).2.1 "A" recA0
    (by decide)).2 (by decide)

/-! ## Station sync and full pipeline (C8) -/

/-- The short-circuit check of `cmd_estaciones`:
`stations_dir.exists() and any(stations_dir.glob("*.json"))`. -/
def stationFilesExist (fs : FS) : Bool :=
  fs.any fun pc =>
    match pc.1 with
    | .station _ => true
    | .daily _ _ => false

/-- The dict comprehension of `fetch_station_info`,
`{s["indicativo"]: s for s in stations}`, iterating left to right over
an insertion-ordered dict; a station payload lacking the
`"indicativo"` key raises `KeyError` at the point it is reached. -/
def fetchStationsGo : List SRecord → List (String × SRecord) →
    Except String (List (String × SRecord))
  | [], acc => .ok acc
  | s :: rest, acc =>
    match s.indicativo with
    | none => .error "KeyError: indicativo"
    | some i => fetchStationsGo rest (upsert acc i s)

def fetch_station_info (stations : List SRecord) :
    Except String (List (String × SRecord)) :=
  fetchStationsGo stations []

/-- The station-sync path of `cmd_estaciones`: if any
`estaciones/*.json` file already exists the fetch is skipped entirely;
otherwise the inventory is fetched and persisted write-if-absent. -/
def station_sync (stations : List SRecord) (fs : FS) :
    Except String (FS × Nat) :=
  if stationFilesExist fs then .ok (fs, 0)
  else
    match fetch_station_info stations with
    | .error msg => .error msg
    | .ok d => .ok (save_station_info d fs)

/-- One full CLI run: station sync followed by the climate-data sync
over `[s, e]`, against the same remote responses.  Returns the final
archive and the total number of files written by the run. -/
def pipeline (stations : List SRecord)
    (responses : Nat × Nat → List DRecord) (s e : Nat) (fs : FS) :
    Except String (FS × Nat) :=
  match station_sync stations fs with
  | .error msg => .error msg
  | .ok r =>
    .ok ((process_date_range responses s e r.1).1,
      r.2 + (process_date_range responses s e r.1).2.1)

theorem sfe_append (fs gs : FS) :
    stationFilesExist (fs ++ gs) =
      (stationFilesExist fs || stationFilesExist gs) := by
  simp [stationFilesExist, List.any_append]

theorem sfe_daily (Δ : FS) (h : ∀ pc ∈ Δ, ∃ d i, pc.1 = APath.daily d i) :
    stationFilesExist Δ = false := by
  rw [stationFilesExist, List.any_eq_false]
  intro pc hpc
  obtain ⟨d, i, hshape⟩ := h pc hpc
  simp [hshape]

theorem pmem_station_sfe (i : String) (fs : FS)
    (h : pmem (APath.station i) fs = true) :
    stationFilesExist fs = true := by
  rw [pmem, List.any_eq_true] at h
  obtain ⟨pc, hpc, hdec⟩ := h
  rw [decide_eq_true_eq] at hdec
  rw [stationFilesExist, List.any_eq_true]
  exact ⟨pc, hpc, by rw [hdec]⟩

theorem datesNeeded_all (c be : Nat) (fs : FS)
    (h : ((List.range' c (be + 1 - c)).filter
      fun d => !check_date_exists d fs).isEmpty = true) :
    ∀ d, c ≤ d → d ≤ be → check_date_exists d fs = true := by
  rw [List.isEmpty_iff, List.filter_eq_nil_iff] at h
  intro d h1 h2
  have := h d (List.mem_range'_1.mpr ⟨h1, by omega⟩)
  simpa using this

theorem processGo_idem (rsp : Nat × Nat → List DRecord) (e : Nat) :
    ∀ fuel c : Nat, ∀ fsA fsB : FS, ∀ n : Nat, ∀ ws : List (Nat × Nat),
    processGo rsp e fuel c fsA = (fsB, n, ws) →
    ∃ ws2, processGo rsp e fuel c fsB = (fsB, 0, ws2) := by
  intro fuel
  induction fuel with
  | zero =>
    intro c fsA fsB n ws h
    rw [processGo_zero] at h
    simp only [Prod.mk.injEq] at h
    obtain ⟨h1, _, _⟩ := h
    subst h1
    exact ⟨[], processGo_zero rsp e c fsA⟩
  | succ fuel ih =>
    intro c fsA fsB n ws h
    by_cases hce : c ≤ e
    · cases hskip1 : ((List.range' c
          (min (c + (BATCH_SIZE_DAYS - 1)) e + 1 - c)).filter
            fun d => !check_date_exists d fsA).isEmpty with
      | true =>
        rw [processGo_skip_step rsp e fuel c fsA hce hskip1] at h
        obtain ⟨Δ, hExt, _⟩ :=
          processGo_ext rsp e fuel (min (c + (BATCH_SIZE_DAYS - 1)) e + 1) fsA
        have hfsB : fsB = fsA ++ Δ := by
          rw [← hExt, h]
        have hall := datesNeeded_all c (min (c + (BATCH_SIZE_DAYS - 1)) e)
          fsA hskip1
        have hskip2 : ((List.range' c
            (min (c + (BATCH_SIZE_DAYS - 1)) e + 1 - c)).filter
              fun d => !check_date_exists d fsB).isEmpty = true := by
          apply datesNeeded_empty
          intro d h1 h2
          rw [hfsB]
          exact check_date_exists_mono d fsA Δ (hall d h1 h2)
        rw [processGo_skip_step rsp e fuel c fsB hce hskip2]
        exact ih _ fsA fsB n ws h
      | false =>
        rw [processGo_fetch_step rsp e fuel c fsA hce hskip1] at h
        simp only [Prod.mk.injEq] at h
        obtain ⟨h1, _, _⟩ := h
        have hPR : processGo rsp e fuel (min (c + (BATCH_SIZE_DAYS - 1)) e + 1)
            (saveGroups (group_by_date
              (rsp (c, min (c + (BATCH_SIZE_DAYS - 1)) e))) fsA).1 =
            (fsB,
              (processGo rsp e fuel (min (c + (BATCH_SIZE_DAYS - 1)) e + 1)
                (saveGroups (group_by_date
                  (rsp (c, min (c + (BATCH_SIZE_DAYS - 1)) e))) fsA).1).2.1,
              (processGo rsp e fuel (min (c + (BATCH_SIZE_DAYS - 1)) e + 1)
                (saveGroups (group_by_date
                  (rsp (c, min (c + (BATCH_SIZE_DAYS - 1)) e))) fsA).1).2.2) := by
          rw [← h1]
        obtain ⟨ws2, hIH⟩ := ih _ _ fsB _ _ hPR
        obtain ⟨Δ2, hExt2, _⟩ :=
          processGo_ext rsp e fuel (min (c + (BATCH_SIZE_DAYS - 1)) e + 1)
            (saveGroups (group_by_date
              (rsp (c, min (c + (BATCH_SIZE_DAYS - 1)) e))) fsA).1
        have hfsB : fsB = (saveGroups (group_by_date
            (rsp (c, min (c + (BATCH_SIZE_DAYS - 1)) e))) fsA).1 ++ Δ2 := by
          rw [← h1, hExt2]
        have hkeys : ∀ gp ∈ group_by_date
            (rsp (c, min (c + (BATCH_SIZE_DAYS - 1)) e)),
            ∀ ir ∈ stationsData gp.2,
            pmem (APath.daily gp.1 ir.1) fsB = true := by
          intro gp hgp ir hir
          have hin : pmem (APath.daily gp.1 ir.1)
              (saveGroups (group_by_date
                (rsp (c, min (c + (BATCH_SIZE_DAYS - 1)) e))) fsA).1 = true :=
            saveGroups_complete _ fsA gp.1 gp.2 ir.1 ir.2 hgp hir
          rw [hfsB]
          exact pmem_mono _ _ _ hin
        cases hskip2 : ((List.range' c
            (min (c + (BATCH_SIZE_DAYS - 1)) e + 1 - c)).filter
              fun d => !check_date_exists d fsB).isEmpty with
        | true =>
          rw [processGo_skip_step rsp e fuel c fsB hce hskip2]
          exact ⟨ws2, hIH⟩
        | false =>
          rw [processGo_fetch_step rsp e fuel c fsB hce hskip2]
          have hnoop : saveGroups (group_by_date
              (rsp (c, min (c + (BATCH_SIZE_DAYS - 1)) e))) fsB = (fsB, 0) :=
            saveGroups_noop _ fsB hkeys
          refine ⟨(c, min (c + (BATCH_SIZE_DAYS - 1)) e) :: ws2, ?_⟩
          rw [hnoop]
          simp only
          rw [hIH]
          rfl
    · rw [processGo_stop rsp e fuel c fsA hce] at h
      simp only [Prod.mk.injEq] at h
      obtain ⟨h1, _, _⟩ := h
      subst h1
      exact ⟨[], processGo_stop rsp e fuel c fsA hce⟩

theorem station_sync_after (stations : List SRecord) (fs fsA : FS)
    (nA : Nat) (Δ : FS)
    (h : station_sync stations fs = .ok (fsA, nA))
    (hΔ : ∀ pc ∈ Δ, ∃ d i, pc.1 = APath.daily d i) :
    station_sync stations (fsA ++ Δ) = .ok (fsA ++ Δ, 0) := by
  by_cases hsfe : stationFilesExist fs = true
  · rw [station_sync, if_pos hsfe] at h
    simp only [Except.ok.injEq, Prod.mk.injEq] at h
    obtain ⟨h1, _⟩ := h
    subst h1
    have h2 : stationFilesExist (fs ++ Δ) = true := by
      rw [sfe_append, hsfe]
      rfl
    rw [station_sync, if_pos h2]
  · rw [station_sync, if_neg hsfe] at h
    have hsfe' : stationFilesExist fs = false := by
      cases hq : stationFilesExist fs
      · rfl
      · exact absurd hq hsfe
    cases hfetch : fetch_station_info stations with
    | error msg =>
      rw [hfetch] at h
      exact absurd h (by simp)
    | ok d =>
      rw [hfetch] at h
      simp only [Except.ok.injEq] at h
      cases d with
      | nil =>
        have hsave : save_station_info [] fs = (fs, 0) := rfl
        rw [hsave] at h
        simp only [Prod.mk.injEq] at h
        obtain ⟨h1, _⟩ := h
        subst h1
        have h2 : stationFilesExist (fs ++ Δ) = false := by
          rw [sfe_append, hsfe', sfe_daily Δ hΔ]
          rfl
        rw [station_sync, if_neg (by rw [h2]; exact Bool.false_ne_true)]
        rw [hfetch]
        rfl
      | cons kv d' =>
        have hkey : pmem (APath.station kv.1) fsA = true := by
          have hm := putAll_mem_key APath.station (·.blob) (kv :: d') fs 0
            kv.1 kv.2 (List.mem_cons_self _ _)
          have hsv : (save_station_info (kv :: d') fs).1 = fsA := by
            rw [h]
          rw [save_station_info] at hsv
          rw [hsv] at hm
          exact hm
        have h2 : stationFilesExist (fsA ++ Δ) = true := by
          apply pmem_station_sfe kv.1
          exact pmem_mono _ _ _ hkey
        rw [station_sync, if_pos h2]

/-- C8.  Idempotence of the full pipeline: if a run against the same
remote responses produced archive `fs1` (writing `n1` files), a second
run against `fs1` succeeds, writes zero files, and leaves the archive
exactly `fs1` — identical file set and contents, no file written a
second time. -/
theorem pipeline_idempotent (stations : List SRecord)
    (responses : Nat × Nat → List DRecord) (s e : Nat) (fs fs1 : FS)
    (n1 : Nat) (h : pipeline stations responses s e fs = .ok (fs1, n1)) :
    pipeline stations responses s e fs1 = .ok (fs1, 0) := by
  rw [pipeline] at h
  cases hst : station_sync stations fs with
  | error msg =>
    rw [hst] at h
    exact absurd h (by simp)
  | ok r =>
    rw [hst] at h
    simp only [Except.ok.injEq, Prod.mk.injEq] at h
    obtain ⟨h1, _⟩ := h
    obtain ⟨Δ, hΔeq, hΔshape⟩ := processGo_ext responses e (e + 1 - s) s r.1
    have hfs1 : fs1 = r.1 ++ Δ := by
      rw [← h1, process_date_range, hΔeq]
    have hss2 : station_sync stations fs1 = .ok (fs1, 0) := by
      rw [hfs1]
      exact station_sync_after stations fs r.1 r.2 Δ (by rw [hst]) hΔshape
    have hPR : processGo responses e (e + 1 - s) s r.1 =
        (fs1, (processGo responses e (e + 1 - s) s r.1).2.1,
          (processGo responses e (e + 1 - s) s r.1).2.2) := by
      rw [← h1, process_date_range]
    obtain ⟨ws2, hidem⟩ :=
      processGo_idem responses e (e + 1 - s) s r.1 fs1 _ _ hPR
    rw [pipeline, hss2]
    simp only
    rw [process_date_range, hidem]
    rfl

theorem pipeline_idempotent_witness :
    pipeline [⟨some "S", "s"⟩] (fun _ => [recA0]) 0 0
        [(APath.station "S", "s"), (APath.daily 0 "A", "a")] =
      .ok ([(APath.station "S", "s"), (APath.daily 0 "A", "a")], 0) :=
  pipeline_idempotent [⟨some "S", "s"⟩] (fun _ => [recA0]) 0 0 []
    [(APath.station "S", "s"), (APath.daily 0 "A", "a")] 2 (by rfl)

/-! ## Crash model of the direct writes (C9) -/

/-- State of a file in the crash model: created but not yet filled
(`truncated`), or completely written. -/
inductive FileData where
  | truncated
  | complete (content : String)
deriving DecidableEq

abbrev CrashFS := List (APath × FileData)

/-- Model of `file_path.exists()` on the crash-model archive: content plays no
role, a truncated file exists all the same. -/
def cexists (p : APath) (cfs : CrashFS) : Bool :=
  cfs.any fun pc => decide (pc.1 = p)

/-- Model of `check_date_exists` on the crash-model archive: `glob("*.json")`
matches a truncated file by name like any other. -/
def check_date_exists_crash (date : Nat) (cfs : CrashFS) : Bool :=
  cfs.any fun pc =>
    match pc.1 with
    | .daily d _ => decide (d = date)
    | .station _ => false

/-- Crash model of the write in `save_daily_data_by_station` and
`save_station_info`: `open(file_path, "w")` creates (or truncates) the
file at its final path as its first effect, then `json.dump` fills it
— two atomic filesystem steps against the final path, with no
temporary file and no rename anywhere in the code.  `stepsDone` counts
how many steps completed before the run was interrupted. -/
def crashingWrite (p : APath) (content : String) (cfs : CrashFS)
    (stepsDone : Nat) : CrashFS :=
  match stepsDone with
  | 0 => cfs
  | 1 => cfs ++ [(p, .truncated)]
  | _ + 2 => cfs ++ [(p, .complete content)]

/-- The write-if-absent step (`if not file_path.exists(): ... write`)
as a subsequent run re-executes it over the crash-model archive. -/
def cput (p : APath) (content : String) (cfs : CrashFS) :
    CrashFS × Bool :=
  if cexists p cfs then (cfs, false)
  else (cfs ++ [(p, .complete content)], true)

/-- C9.  The claim says a run interrupted mid-write never leaves a
partially written entry that a later existence check observes as
existing.  The code writes straight to the final path, so interrupting
after `open` but before `json.dump` completes leaves a truncated file
that `check_date_exists` counts as an archived entry, while the
complete payload is nowhere in the archive. -/
theorem crash_write_observable_cex :
    check_date_exists_crash 0
        (crashingWrite (APath.daily 0 "A") "payload" [] 1) = true
    ∧ (APath.daily 0 "A", FileData.complete "payload") ∉
        crashingWrite (APath.daily 0 "A") "payload" [] 1 := by
  decide

/-- C9 (amended).  The write is not crash-protected: a run interrupted
between file creation and content write leaves a truncated file at the
final (not temporary) path; both the existence check and the per-date
skip check observe it as existing, and the write-if-absent persist of
a subsequent run therefore skips the entry, leaving it permanently
incomplete. -/
theorem crash_write_amended (d : Nat) (i content : String)
    (cfs : CrashFS) :
    crashingWrite (APath.daily d i) content cfs 1 =
        cfs ++ [(APath.daily d i, FileData.truncated)]
    ∧ cexists (APath.daily d i)
        (crashingWrite (APath.daily d i) content cfs 1) = true
    ∧ check_date_exists_crash d
        (crashingWrite (APath.daily d i) content cfs 1) = true
    ∧ cput (APath.daily d i) content
        (crashingWrite (APath.daily d i) content cfs 1) =
      (crashingWrite (APath.daily d i) content cfs 1, false) := by
  have hc : cexists (APath.daily d i)
      (crashingWrite (APath.daily d i) content cfs 1) = true := by
    simp [cexists, crashingWrite, List.any_append]
  refine ⟨rfl, hc, ?_, ?_⟩
  · simp [check_date_exists_crash, crashingWrite, List.any_append]
  · rw [cput, if_pos hc]

/-! ## Malformed payloads (C10) -/

theorem fetchStationsGo_error : ∀ (stations : List SRecord)
    (acc : List (String × SRecord)) (s : SRecord), s ∈ stations →
    s.indicativo = none →
    ∃ msg, fetchStationsGo stations acc = .error msg := by
  intro stations
  induction stations with
  | nil => intro acc s h _; simp at h
  | cons s0 rest ih =>
    intro acc s h hnone
    cases hi : s0.indicativo with
    | none => exact ⟨"KeyError: indicativo", by simp [fetchStationsGo, hi]⟩
    | some i =>
      rcases List.mem_cons.mp h with h | h
      · subst h
        rw [hnone] at hi
        cases hi
      · simp only [fetchStationsGo, hi]
        exact ih _ s h hnone

/-- C10.  A station inventory payload containing any station object
without the `"indicativo"` key makes `fetch_station_info` raise
(aborting the whole station sync), whereas a weather record lacking
`"fecha"` never appears in any group produced by `group_by_date`, and
a weather record lacking `"indicativo"` never appears in the keyed
`stations_data` that `save_daily_data_by_station` persists — both are
silently dropped while the run continues. -/
theorem missing_key_handling :
    (∀ stations : List SRecord, ∀ s ∈ stations, s.indicativo = none →
      ∃ msg, fetch_station_info stations = .error msg)
    ∧ (∀ data : List DRecord, ∀ r ∈ data, r.fecha = none →
      ∀ d rs, (d, rs) ∈ group_by_date data → r ∉ rs)
    ∧ (∀ data : List DRecord, ∀ r ∈ data, r.indicativo = none →
      ∀ i : String, (i, r) ∉ stationsData data) := by
  refine ⟨?_, ?_, ?_⟩
  · intro stations s h hnone
    exact fetchStationsGo_error stations [] s h hnone
  · intro data r _ hnone d rs hmem hr
    have hf := group_by_date_inv data d rs hmem r hr
    rw [hnone] at hf
    cases hf
  · intro data r _ hnone i hmem
    have hi := (stationsData_mem data i r hmem).2
    rw [hnone] at hi
    cases hi

theorem missing_key_handling_witness :
    (∃ msg, fetch_station_info [⟨none, "x"⟩] = .error msg)
    ∧ (⟨none, some "A", "a"⟩ : DRecord) ∉ [recA0]
    ∧ ("A", (⟨some 0, none, "z"⟩ : DRecord)) ∉
        stationsData [⟨some 0, none, "z"⟩] :=
  ⟨missing_key_handling.1 [⟨none, "x"⟩] ⟨none, "x"⟩
      (List.mem_singleton.mpr rfl) rfl,
    missing_key_handling.2.1 [⟨none, some "A", "a"⟩, recA0]
      ⟨none, some "A", "a"⟩ (List.mem_cons_self _ _) rfl 0 [recA0]
      (by decide),
    missing_key_handling.2.2 [⟨some 0, none, "z"⟩] ⟨some 0, none, "z"⟩
      (List.mem_singleton.mpr rfl) rfl "A"⟩
